import Mathlib

/-!
Verification of the HD-wallet core of `simple-eth-hd-wallet`.

The Go sources are shallowly embedded:
* `internal/wallet/simple_wallet.go` (the `SimpleWallet` engine) in namespace `SW`,
* `hdwallet.go` (the legacy `Wallet` backed by library BIP-32 derivation) in
  namespace `HD`, parameterised by the external library primitives,
* the mnemonic module shared by both.

Go byte slices are `List Nat` with values below 256 where it matters; Go
strings are `List Char`; Go maps are association lists; fallible calls return
`Except`/`Option`.
-/

/-- 32-bit truncation, used for all `uint32` arithmetic of the Go code. -/
def w32 (n : Nat) : Nat := n % 4294967296

/-- Right rotation of a 32-bit word, `bits.RotateLeft32` style helper. -/
def rotr32 (r b : Nat) : Nat := w32 ((b >>> r) ||| (b <<< (32 - r)))

/-- SHA-256 compression state, the eight working registers of `crypto/sha256`. -/
structure Sha8 where
  h0 : Nat
  h1 : Nat
  h2 : Nat
  h3 : Nat
  h4 : Nat
  h5 : Nat
  h6 : Nat
  h7 : Nat
deriving DecidableEq

/-- Initial SHA-256 state (FIPS 180-4), written in decimal. -/
def shaInit : Sha8 :=
  ⟨1779033703, 3144134277, 1013904242, 2773480762,
   1359893119, 2600822924, 528734635, 1541459225⟩

/-- The 64 SHA-256 round constants (FIPS 180-4), written in decimal. -/
def shaK : List Nat :=
  [1116352408, 1899447441, 3049323471, 3921009573, 961987163, 1508970993,
   2453635748, 2870763221, 3624381080, 310598401, 607225278, 1426881987,
   1925078388, 2162078206, 2614888103, 3248222580, 3835390401, 4022224774,
   264347078, 604807628, 770255983, 1249150122, 1555081692, 1996064986,
   2554220882, 2821834349, 2952996808, 3210313671, 3336571891, 3584528711,
   113926993, 338241895, 666307205, 773529912, 1294757372, 1396182291,
   1695183700, 1986661051, 2177026350, 2456956037, 2730485921, 2820302411,
   3259730800, 3345764771, 3516065817, 3600352804, 4094571909, 275423344,
   430227734, 506948616, 659060556, 883997877, 958139571, 1322822218,
   1537002063, 1747873779, 1955562222, 2024104815, 2227730452, 2361852424,
   2428436474, 2756734187, 3204031479, 3329325298]

/-- Big-endian 32-bit words from a byte list (4 bytes per word). -/
def toWords : List Nat → List Nat
  | b0 :: b1 :: b2 :: b3 :: rest =>
      ((b0 % 256) * 16777216 + (b1 % 256) * 65536 + (b2 % 256) * 256 + b3 % 256) :: toWords rest
  | _ => []

/-- Next word of the SHA-256 message schedule from the current schedule list. -/
def nextW (ws : List Nat) : Nat :=
  let L := ws.length
  let s0 := rotr32 7 (ws.getD (L - 15) 0) ^^^ rotr32 18 (ws.getD (L - 15) 0) ^^^ (ws.getD (L - 15) 0 >>> 3)
  let s1 := rotr32 17 (ws.getD (L - 2) 0) ^^^ rotr32 19 (ws.getD (L - 2) 0) ^^^ (ws.getD (L - 2) 0 >>> 10)
  w32 (ws.getD (L - 16) 0 + s0 + ws.getD (L - 7) 0 + s1)

/-- Extend the 16-word block to the 64-word message schedule. -/
def extendW (ws : List Nat) : Nat → List Nat
  | 0 => ws
  | n + 1 => extendW (ws ++ [nextW ws]) n

/-- One SHA-256 round: fold the round constant and schedule word into the state. -/
def shaRound (s : Sha8) (kw : Nat × Nat) : Sha8 :=
  let S1 := rotr32 6 s.h4 ^^^ rotr32 11 s.h4 ^^^ rotr32 25 s.h4
  let ch := (s.h4 &&& s.h5) ^^^ ((s.h4 ^^^ 4294967295) &&& s.h6)
  let t1 := w32 (s.h7 + S1 + ch + kw.1 + kw.2)
  let S0 := rotr32 2 s.h0 ^^^ rotr32 13 s.h0 ^^^ rotr32 22 s.h0
  let mj := (s.h0 &&& s.h1) ^^^ (s.h0 &&& s.h2) ^^^ (s.h1 &&& s.h2)
  let t2 := w32 (S0 + mj)
  ⟨w32 (t1 + t2), s.h0, s.h1, s.h2, w32 (s.h3 + t1), s.h4, s.h5, s.h6⟩

/-- Compress one 64-byte block into the running SHA-256 state. -/
def compressBlock (s : Sha8) (block : List Nat) : Sha8 :=
  let W := extendW (toWords block) 48
  let t := (shaK.zip W).foldl shaRound s
  ⟨w32 (s.h0 + t.h0), w32 (s.h1 + t.h1), w32 (s.h2 + t.h2), w32 (s.h3 + t.h3),
   w32 (s.h4 + t.h4), w32 (s.h5 + t.h5), w32 (s.h6 + t.h6), w32 (s.h7 + t.h7)⟩

/-- Big-endian 8-byte encoding of the 64-bit message bit length. -/
def lenBytes8 (n : Nat) : List Nat :=
  [n >>> 56 % 256, n >>> 48 % 256, n >>> 40 % 256, n >>> 32 % 256,
   n >>> 24 % 256, n >>> 16 % 256, n >>> 8 % 256, n % 256]

/-- SHA-256 padding: append 0x80, zero fill to 56 mod 64, then the bit length. -/
def shaPad (msg : List Nat) : List Nat :=
  msg ++ 128 :: List.replicate ((64 - (msg.length + 9) % 64) % 64) 0 ++ lenBytes8 (8 * msg.length)

/-- Split a byte list into 64-byte chunks. -/
def chunks64 : List Nat → List (List Nat)
  | [] => []
  | x :: xs => ((x :: xs).take 64) :: chunks64 ((x :: xs).drop 64)
termination_by l => l.length
decreasing_by simp [List.length_drop]; omega

/-- Serialize the final state to the 32-byte big-endian digest. -/
def digestBytes (s : Sha8) : List Nat :=
  [s.h0 >>> 24 % 256, s.h0 >>> 16 % 256, s.h0 >>> 8 % 256, s.h0 % 256,
   s.h1 >>> 24 % 256, s.h1 >>> 16 % 256, s.h1 >>> 8 % 256, s.h1 % 256,
   s.h2 >>> 24 % 256, s.h2 >>> 16 % 256, s.h2 >>> 8 % 256, s.h2 % 256,
   s.h3 >>> 24 % 256, s.h3 >>> 16 % 256, s.h3 >>> 8 % 256, s.h3 % 256,
   s.h4 >>> 24 % 256, s.h4 >>> 16 % 256, s.h4 >>> 8 % 256, s.h4 % 256,
   s.h5 >>> 24 % 256, s.h5 >>> 16 % 256, s.h5 >>> 8 % 256, s.h5 % 256,
   s.h6 >>> 24 % 256, s.h6 >>> 16 % 256, s.h6 >>> 8 % 256, s.h6 % 256,
   s.h7 >>> 24 % 256, s.h7 >>> 16 % 256, s.h7 >>> 8 % 256, s.h7 % 256]

/-- `crypto/sha256.Sum256`: the SHA-256 digest of a byte list. -/
def sha256 (msg : List Nat) : List Nat :=
  digestBytes ((chunks64 (shaPad msg)).foldl compressBlock shaInit)

theorem sha256_length (msg : List Nat) : (sha256 msg).length = 32 := by
  simp [sha256, digestBytes]

/-- UTF-8 encoding of one character, as Go `[]byte(string)` produces. -/
def utf8EncodeChar (c : Char) : List Nat :=
  let n := c.toNat
  if n < 128 then [n]
  else if n < 2048 then [192 + n / 64, 128 + n % 64]
  else if n < 65536 then [224 + n / 4096, 128 + n / 64 % 64, 128 + n % 64]
  else [240 + n / 262144, 128 + n / 4096 % 64, 128 + n / 64 % 64, 128 + n % 64]

/-- Go `[]byte(s)`: the UTF-8 bytes of a string. -/
def utf8Bytes (s : List Char) : List Nat := s.flatMap utf8EncodeChar

/-- Go `copy(dst[off:], src)`: overwrite `dst` from offset `off` with as much
of `src` as fits, leaving the rest of `dst` unchanged. -/
def goCopyAt (dst : List Nat) (off : Nat) (src : List Nat) : List Nat :=
  let n := min (dst.length - off) src.length
  dst.take off ++ src.take n ++ dst.drop (off + n)

/-- Big-endian interpretation of a byte list, `new(big.Int).SetBytes`. -/
def natOfBytes (bs : List Nat) : Nat := bs.foldl (fun acc b => acc * 256 + b % 256) 0

/-- Generic association-list lookup, modelling a read `m[k]` of a Go map. -/
def lookupA {α β : Type} [DecidableEq α] : List (α × β) → α → Option β
  | [], _ => none
  | (k, v) :: rest, k0 => if k = k0 then some v else lookupA rest k0

/-- Generic association-list update, modelling a write `m[k] = v` of a Go map. -/
def mapSet {α β : Type} [DecidableEq α] : List (α × β) → α → β → List (α × β)
  | [], k0, v0 => [(k0, v0)]
  | (k, v) :: rest, k0, v0 => if k = k0 then (k0, v0) :: rest else (k, v) :: mapSet rest k0 v0

/-! ## Mnemonic module (`internal/wallet/simple_wallet.go` + the word list) -/

/-- Go `unicode.IsSpace` restricted to the characters it recognises (Latin-1 range). -/
def goIsSpace (c : Char) : Bool :=
  c = ' ' || c = '\t' || c = '\n' || c = Char.ofNat 11 || c = Char.ofNat 12 ||
  c = '\r' || c = Char.ofNat 133 || c = Char.ofNat 160

/-- Worker of `strings.Fields`: split on whitespace runs, `acc` holds the
current word reversed. -/
def fieldsAux : List Char → List Char → List (List Char)
  | [], acc => if acc = [] then [] else [acc.reverse]
  | c :: cs, acc =>
      if goIsSpace c then
        (if acc = [] then fieldsAux cs [] else acc.reverse :: fieldsAux cs [])
      else fieldsAux cs (c :: acc)

/-- Go `strings.Fields`: the whitespace-separated words of a string. -/
def goFields (s : List Char) : List (List Char) := fieldsAux s []

/-- Go `strings.Join(words, " ")`. -/
def joinWords : List (List Char) → List Char
  | [] => []
  | [w] => w
  | w :: ws => w ++ ' ' :: joinWords ws

/-- Modelled from the spec: the i-th entry of the fixed 2048-entry BIP-39
dictionary. The Go word-list source file (`BIP39WordList`) is not part of the
sources available here, so per the spec the dictionary is modelled as 2048
distinct nonempty whitespace-free words. -/
def wordOfIndex (i : Nat) : List Char := 'w' :: List.replicate i 'a'

/-- Modelled from the spec: `BIP39WordList`, the fixed 2048-entry dictionary
("indexed from 1 to 2^11 = 2048 mnemonic phrase options"). -/
def BIP39WordList : List (List Char) := (List.range 2048).map wordOfIndex

/-- `validateMnemonic` of `simple_wallet.go`: word count must be one of
12/15/18/21/24 and every word must be in the dictionary (the Go code looks
words up in `bip39WordMap`, which holds exactly the entries of
`BIP39WordList`). -/
def validateMnemonic (mnemonic : List Char) : Bool :=
  let words := goFields mnemonic
  let wordCount := words.length
  if wordCount ≠ 12 ∧ wordCount ≠ 15 ∧ wordCount ≠ 18 ∧ wordCount ≠ 21 ∧ wordCount ≠ 24 then
    false
  else
    words.all (fun w => BIP39WordList.contains w)

/-- Errors of the `internal/wallet` package (`simple_wallet.go` var block). -/
inductive SWErr where
  | invalidMnemonic
  | invalidPath
  | accountNotFound
  | invalidEntropy
  | walletLocked
  | invalidPassphrase
  | invalidSeed
  | keyDerivationFailed
deriving DecidableEq

/-- `GenerateMnemonic` of `simple_wallet.go`. The `crypto/rand` stream is a
parameter `rnd` giving the i-th random byte; per word `i` the code draws two
bytes, forms a 16-bit value and reduces it mod 2048. -/
def GenerateMnemonic (rnd : Nat → Fin 256) (entropyBits : Int) : Except SWErr (List Char) :=
  if entropyBits < 128 ∨ entropyBits > 256 ∨ entropyBits % 32 ≠ 0 then
    .error .invalidEntropy
  else if entropyBits = 128 then .ok (genWords rnd 12)
  else if entropyBits = 160 then .ok (genWords rnd 15)
  else if entropyBits = 192 then .ok (genWords rnd 18)
  else if entropyBits = 224 then .ok (genWords rnd 21)
  else if entropyBits = 256 then .ok (genWords rnd 24)
  else .error .invalidEntropy
where
  /-- The generation loop: `wordCount` words, each picked by
  `(uint16(b0)<<8 | uint16(b1)) % 2048`, joined with single spaces. -/
  genWords (rnd : Nat → Fin 256) (wordCount : Nat) : List Char :=
    joinWords ((List.range wordCount).map (fun i =>
      BIP39WordList.getD (((rnd (2 * i)).val * 256 + (rnd (2 * i + 1)).val) % 2048) []))

/-! ## SimpleWallet (`internal/wallet/simple_wallet.go`) -/

namespace SW

/-- One `*wallet.Account` as stored in the registry. `privD` is the content of
the `ecdsa.PrivateKey` scalar `D`; `privNil` records whether the Go
`PrivateKey` pointer has been set to `nil` by cleanup. `pubBytes` is the
marshalled public key point. -/
structure SWAccount where
  address : List Nat
  path : List Char
  index : Nat
  privD : Nat
  privNil : Bool
  pubBytes : List Nat
  createdAt : Nat
deriving DecidableEq

/-- `SimpleWallet` state. `seedBuf` is the content of the seed slice's backing
array and `seedNil` whether `w.seed` is `nil`; `masterKey` is the randomly
generated (and never used for derivation) P-256 key, kept abstract as a `Nat`. -/
structure SWState where
  mnemonic : List Char
  seedBuf : List Nat
  seedNil : Bool
  masterKey : Nat
  accounts : List (List Nat × SWAccount)
  paths : List (List Nat × List Nat)
  isLocked : Bool
deriving DecidableEq

/-- `generateSeedFromMnemonic`: SHA-256 of `mnemonic + passphrase`, copied into
a 64-byte buffer whose tail is a second SHA-256 of the first hash. -/
def generateSeedFromMnemonic (mnemonic passphrase : List Char) : List Nat :=
  let combined := mnemonic ++ passphrase
  let hash := sha256 (utf8Bytes combined)
  let seed := List.replicate 64 0
  let seed := goCopyAt seed 0 hash
  let hash2 := sha256 hash
  goCopyAt seed 32 hash2

/-- `newWallet`: fresh unlocked wallet with a secure copy of the seed and the
freshly generated random `masterKey`. -/
def newWallet (mnemonic : List Char) (seed : List Nat) (masterKey : Nat) : SWState :=
  { mnemonic := mnemonic, seedBuf := seed, seedNil := false, masterKey := masterKey,
    accounts := [], paths := [], isLocked := false }

/-- `NewFromMnemonic` (with `config.Passphrase = passphrase`): validate the
mnemonic, derive the seed, build the wallet. `masterKey` stands for the output
of the random `ecdsa.GenerateKey` call. -/
def NewFromMnemonic (mnemonic passphrase : List Char) (masterKey : Nat) : Except SWErr SWState :=
  if !validateMnemonic mnemonic then .error .invalidMnemonic
  else
    let seed := generateSeedFromMnemonic mnemonic passphrase
    if seed.length ≠ 64 then .error .invalidSeed
    else .ok (newWallet mnemonic seed masterKey)

/-- `NewFromSeed`. -/
def NewFromSeed (seed : List Nat) (masterKey : Nat) : Except SWErr SWState :=
  if seed.length ≠ 64 then .error .invalidSeed
  else .ok (newWallet [] seed masterKey)

/-- Big-endian bytes of one `uint32` path component, as written into the hash
(`byte(component >> 24)` down to `byte(component)`). -/
def u32be (c : Nat) : List Nat :=
  [c >>> 24 % 256, c >>> 16 % 256, c >>> 8 % 256, c % 256]

/-- The seed bytes `derivePrivateKey` hashes: the (possibly nil) seed slice. -/
def effSeed (w : SWState) : List Nat := if w.seedNil then [] else w.seedBuf

/-- `derivePrivateKey` of `simple_wallet.go`: SHA-256 over seed followed by the
big-endian path components; the digest is the key scalar bytes. -/
def derivePrivateKeyBytes (w : SWState) (path : List Nat) : List Nat :=
  sha256 (effSeed w ++ path.flatMap u32be)

/-- `formatDerivationPath`. -/
def formatDerivationPath (path : List Nat) : List Char :=
  if path = [] then ['m']
  else 'm' :: path.flatMap (fun c =>
    if c ≥ 2147483648 then '/' :: (Nat.toDigits 10 (c - 2147483648) ++ [Char.ofNat 39])
    else '/' :: Nat.toDigits 10 c)

/-- `pubkeyToAddress`: SHA-256 of the marshalled point minus its format byte,
keeping the last 20 bytes. -/
def pubkeyToAddress (pubBytes : List Nat) : List Nat :=
  (sha256 (pubBytes.drop 1)).drop 12

/-- `Derive` of `simple_wallet.go`. `curve` stands for the P-256
`ScalarBaseMult` + `elliptic.Marshal` composite (key scalar bytes to marshalled
point bytes); `now` for `time.Now()`. -/
def derive (curve : List Nat → List Nat) (now : Nat) (w : SWState) (index : Nat) :
    Except SWErr (SWAccount × SWState) :=
  if w.isLocked then .error .walletLocked
  else
    let path := [2147483692, 2147483708, 2147483648, 0, index]
    let keyBytes := derivePrivateKeyBytes w path
    let pub := curve keyBytes
    let address := pubkeyToAddress pub
    let account : SWAccount :=
      { address := address, path := formatDerivationPath path, index := index,
        privD := natOfBytes keyBytes, privNil := false, pubBytes := pub, createdAt := now }
    .ok (account, { w with accounts := mapSet w.accounts address account,
                           paths := mapSet w.paths address path })

/-- `secureClearPrivateKey` + `account.PrivateKey = nil` applied to one
registry entry of `cleanup`. -/
def clearEntry (e : List Nat × SWAccount) : List Nat × SWAccount :=
  if e.2.privNil then e else (e.1, { e.2 with privD := 0, privNil := true })

/-- `cleanup` of `simple_wallet.go`: zero and drop the seed slice, zero and
drop every stored private key. -/
def cleanup (w : SWState) : SWState :=
  { w with
    seedBuf := if w.seedNil then w.seedBuf else w.seedBuf.map (fun _ => 0),
    seedNil := true,
    accounts := w.accounts.map clearEntry }

/-- `Close`: runs `cleanup` and returns nil. -/
def close (w : SWState) : SWState := cleanup w

end SW


/-! ## Legacy `hdwallet.go` wallet, backed by library BIP-32 derivation.

The external go-ethereum / btcsuite primitives (`hdkeychain`, `crypto`,
`types`) are not repository code; they enter the embedding as the fields of
`HDPrims`, arbitrary (but fixed, purely functional) computable operations. -/

namespace HD

/-- One byte of a `common.Address` (20-byte Ethereum address). -/
abbrev AddrByte := Fin 256

/-- `common.Address`. -/
abbrev Addr := List AddrByte

/-- `accounts.URL`. -/
structure HURL where
  scheme : List Char
  path : List Char
deriving DecidableEq

/-- `accounts.Account`: address plus optional URL. -/
structure HAccount where
  address : Addr
  url : HURL
deriving DecidableEq

/-- The external library primitives `hdwallet.go` calls. Extended keys,
private keys, public keys, transactions and signed transactions are kept
abstract as `Nat`; each primitive is an arbitrary function, fallible where the
library call returns an error. -/
structure HDPrims where
  /-- `hdkeychain.ExtendedKey.Child`. -/
  child : Nat → Nat → Option Nat
  /-- `ExtendedKey.ECPrivKey` composed with `btcec` `ToECDSA`. -/
  ecPriv : Nat → Option Nat
  /-- `ecdsa.PrivateKey.Public` (the type assertion always succeeds). -/
  pubOf : Nat → Nat
  /-- `crypto.PubkeyToAddress`. -/
  pubToAddr : Nat → Addr
  /-- `accounts.DerivationPath.String`. -/
  pathString : List Nat → List Char
  /-- `crypto.Sign`. -/
  ecSign : List Nat → Nat → Option (List Nat)
  /-- `types.SignTx` with the Homestead signer. -/
  txSign : Nat → Nat → Option Nat
  /-- `signedTx.AsMessage(HomesteadSigner).From()`. -/
  asMessageFrom : Nat → Option Addr
  /-- `hdkeychain.NewMaster`. -/
  newMaster : List Nat → Option Nat

/-- `Wallet` of `hdwallet.go`. -/
structure HDWallet where
  mnemonic : List Char
  masterKey : Nat
  seed : List Nat
  paths : List (Addr × List Nat)
  accounts : List HAccount
deriving DecidableEq

/-- Errors surfaced by `hdwallet.go`; library errors are propagated as
`libFailure`, which is a distinct value from the named sentinel errors. -/
inductive HDErr where
  | unknownAccount
  | accountNotFound
  | signerMismatch
  | libFailure
deriving DecidableEq

/-- `derivePrivateKey` of `hdwallet.go`: walk `Child` along the path from the
master key, then extract the EC private key. -/
def derivePrivateKey (pr : HDPrims) (w : HDWallet) (path : List Nat) : Option Nat :=
  (path.foldlM (fun key n => pr.child key n) w.masterKey).bind pr.ecPriv

/-- `derivePublicKey`. -/
def derivePublicKey (pr : HDPrims) (w : HDWallet) (path : List Nat) : Option Nat :=
  (derivePrivateKey pr w path).map pr.pubOf

/-- `deriveAddress`. -/
def deriveAddress (pr : HDPrims) (w : HDWallet) (path : List Nat) : Option Addr :=
  (derivePublicKey pr w path).map pr.pubToAddr

/-- `Derive` of `hdwallet.go`: compute the account; when `pin` is set and the
address is not yet in `w.paths`, append it to the account list and the path
index. -/
def derive (pr : HDPrims) (w : HDWallet) (path : List Nat) (pin : Bool) :
    Except HDErr (HAccount × HDWallet) :=
  match deriveAddress pr w path with
  | none => .error .libFailure
  | some address =>
    let account : HAccount := ⟨address, ⟨[], pr.pathString path⟩⟩
    if !pin then .ok (account, w)
    else
      match lookupA w.paths address with
      | some _ => .ok (account, w)
      | none => .ok (account, { w with accounts := w.accounts ++ [account],
                                       paths := w.paths ++ [(address, path)] })

/-- `Contains`: membership of the address in the `paths` map. -/
def contains (w : HDWallet) (account : HAccount) : Bool :=
  (lookupA w.paths account.address).isSome

/-- Lowercase hex digit character of a value below 16 (the `hextable`
indexing of Go's hex encoder): digits map to `'0'..'9'`, then `'a'..'f'`. -/
def hexDigitChar (n : Nat) : Char :=
  if n < 10 then Char.ofNat (48 + n) else Char.ofNat (87 + n)

/-- `common.Address.String` (= `Hex`): `0x` followed by the hex digits of the
20 address bytes (the EIP-55 capitalisation does not affect injectivity and is
modelled as lowercase). -/
def addrString (a : Addr) : List Char :=
  '0' :: 'x' :: a.flatMap (fun b => [hexDigitChar (b.val / 16), hexDigitChar (b.val % 16)])

/-- The removal loop of `Unpin`: find the first stored account whose
`Address.String()` equals the argument's, drop it. -/
def removeFirst (target : Addr) : List HAccount → Option (List HAccount)
  | [] => none
  | acct :: rest =>
      if addrString acct.address = addrString target then some rest
      else (removeFirst target rest).map (fun l => acct :: l)

/-- `Unpin` of `hdwallet.go`: scan the account list by address string; on a hit
remove the entry and delete the address from the `paths` map, otherwise fail
with the "Account not found." error. -/
def unpin (w : HDWallet) (account : HAccount) : Except HDErr HDWallet :=
  match removeFirst account.address w.accounts with
  | none => .error .accountNotFound
  | some accounts1 =>
      .ok { w with accounts := accounts1,
                   paths := w.paths.filter (fun e => e.1 ≠ account.address) }

/-- `SignHash` of `hdwallet.go` (reads `w.paths` without taking any lock). -/
def signHash (pr : HDPrims) (w : HDWallet) (account : HAccount) (hash : List Nat) :
    Except HDErr (List Nat) :=
  match lookupA w.paths account.address with
  | none => .error .unknownAccount
  | some path =>
    match derivePrivateKey pr w path with
    | none => .error .libFailure
    | some priv =>
      match pr.ecSign hash priv with
      | none => .error .libFailure
      | some sig => .ok sig

/-- `SignTx` of `hdwallet.go`: derive, sign, then recover the sender and
compare it with the account address. -/
def signTx (pr : HDPrims) (w : HDWallet) (account : HAccount) (tx : Nat) :
    Except HDErr Nat :=
  match lookupA w.paths account.address with
  | none => .error .unknownAccount
  | some path =>
    match derivePrivateKey pr w path with
    | none => .error .libFailure
    | some priv =>
      match pr.txSign tx priv with
      | none => .error .libFailure
      | some signedTx =>
        match pr.asMessageFrom signedTx with
        | none => .error .libFailure
        | some sender =>
          if sender = account.address then .ok signedTx
          else .error .signerMismatch

/-- `SignHashWithPassphrase` of `hdwallet.go`: the body is
`return w.SignHash(account, hash)` under a TODO comment; the passphrase is
never used. -/
def signHashWithPassphrase (pr : HDPrims) (w : HDWallet) (account : HAccount)
    (passphrase : List Char) (hash : List Nat) : Except HDErr (List Nat) :=
  signHash pr w account hash

/-- `SignTxWithPassphrase` of `hdwallet.go`: the body is
`return w.SignTx(account, tx, chainID)` under a TODO comment; the passphrase is
never used. -/
def signTxWithPassphrase (pr : HDPrims) (w : HDWallet) (account : HAccount)
    (passphrase : List Char) (tx : Nat) : Except HDErr Nat :=
  signTx pr w account tx

/-- Which kind of lock a method of `hdwallet.go` holds while it runs. -/
inductive LockKind where
  | shared
  | exclusive
  | noLock
deriving DecidableEq

/-- `Unpin` acquires `w.stateLock.RLock()` (line 293) — a shared lock — for its
whole body. -/
def unpinLockKind : LockKind := .shared

/-- The pinning branch of `Derive` acquires `w.stateLock.Lock()` (line 336) —
the exclusive lock. -/
def derivePinLockKind : LockKind := .exclusive

/-- `SignHash` acquires no lock at all before reading `w.paths`. -/
def signHashLockKind : LockKind := .noLock

/-- `Contains` acquires `w.stateLock.RLock()`. -/
def containsLockKind : LockKind := .shared

/-- `Accounts` acquires `w.stateLock.RLock()`. -/
def accountsLockKind : LockKind := .shared

/-- The hex digits of a byte list, two lowercase digits per byte (the digit
part of `hexutil.Encode`). -/
def hexOfBytes (bs : List Nat) : List Char :=
  bs.flatMap (fun b => [hexDigitChar (b / 16), hexDigitChar (b % 16)])

/-- `PrivateKeyHex` of `hdwallet.go`, as a function of the byte dump that
`PrivateKeyBytes` (`crypto.FromECDSA`, always 32 bytes) returned: hex-encode
with `0x` (`hexutil.Encode`), strip the prefix, and strip two more characters
whenever the characters at positions 2 and 3 are both `'0'`. -/
def privateKeyHexGo (bs : List Nat) : List Char :=
  let h := ('0' :: 'x' :: hexOfBytes bs).drop 2
  if h.getD 2 ' ' = '0' ∧ h.getD 3 ' ' = '0' then h.drop 2 else h

/-- Value of a lowercase hex digit character, for decoding the accessor's
output. -/
def hexCharVal (c : Char) : Nat :=
  if 48 ≤ c.toNat ∧ c.toNat ≤ 57 then c.toNat - 48
  else if 97 ≤ c.toNat ∧ c.toNat ≤ 102 then c.toNat - 87
  else 0

/-- Hex decoding of a character list, two digits per byte. -/
def hexDecode : List Char → List Nat
  | c1 :: c2 :: rest => (16 * hexCharVal c1 + hexCharVal c2) :: hexDecode rest
  | _ => []

/-- `Close` of `hdwallet.go` (lines 258-260): the body is `return nil`; no
field is touched, nothing is zeroed. -/
def closeGo (w : HDWallet) : HDWallet := w

end HD

/-! ## Supporting lemmas for the SimpleWallet claims -/

theorem generateSeed_length (m p : List Char) :
    (SW.generateSeedFromMnemonic m p).length = 64 := by
  simp [SW.generateSeedFromMnemonic, goCopyAt, sha256_length]

theorem clearEntry_idem (e : List Nat × SW.SWAccount) :
    SW.clearEntry (SW.clearEntry e) = SW.clearEntry e := by
  by_cases h : e.2.privNil <;> simp [SW.clearEntry, h]

theorem clearEntry_privNil (e : List Nat × SW.SWAccount) :
    (SW.clearEntry e).2.privNil = true := by
  by_cases h : e.2.privNil <;> simp [SW.clearEntry, h]

/-- C9: seed derivation depends only on the concatenation `mnemonic ++
passphrase`: equal concatenations give byte-identical seeds (hence identical
wallets from those seeds, for any given master key), and the seed always has
length exactly 64. -/
theorem seed_depends_only_on_concat (m1 p1 m2 p2 : List Char)
    (h : m1 ++ p1 = m2 ++ p2) :
    SW.generateSeedFromMnemonic m1 p1 = SW.generateSeedFromMnemonic m2 p2 ∧
    (SW.generateSeedFromMnemonic m1 p1).length = 64 ∧
    (∀ mk : Nat, SW.NewFromSeed (SW.generateSeedFromMnemonic m1 p1) mk =
        SW.NewFromSeed (SW.generateSeedFromMnemonic m2 p2) mk) := by
  have he : SW.generateSeedFromMnemonic m1 p1 = SW.generateSeedFromMnemonic m2 p2 := by
    unfold SW.generateSeedFromMnemonic
    rw [h]
  exact ⟨he, generateSeed_length m1 p1, fun mk => by rw [he]⟩

/-- Witness for C9 at the concrete credentials ("ab","c") and ("a","bc"). -/
theorem seed_depends_only_on_concat_witness :
    SW.generateSeedFromMnemonic "ab".data "c".data =
      SW.generateSeedFromMnemonic "a".data "bc".data ∧
    (SW.generateSeedFromMnemonic "ab".data "c".data).length = 64 ∧
    (∀ mk : Nat, SW.NewFromSeed (SW.generateSeedFromMnemonic "ab".data "c".data) mk =
        SW.NewFromSeed (SW.generateSeedFromMnemonic "a".data "bc".data) mk) :=
  seed_depends_only_on_concat "ab".data "c".data "a".data "bc".data (by decide)

/-- C1: key derivation is deterministic. `derivePrivateKey` of the
`SimpleWallet` reads only the seed slice and the path — the randomly generated
`masterKey` field (and everything else in the state) has no influence — so the
derived scalar, public key point and address agree across any two wallet states
with the same seed; two wallets independently built by `NewFromMnemonic` from
the same mnemonic and passphrase have the same seed; and the legacy
`hdwallet.go` `derivePrivateKey` is likewise a function of the master key and
path alone. -/
theorem derive_deterministic :
    (∀ (w1 w2 : SW.SWState) (path : List Nat),
        w1.seedBuf = w2.seedBuf → w1.seedNil = w2.seedNil →
        SW.derivePrivateKeyBytes w1 path = SW.derivePrivateKeyBytes w2 path) ∧
    (∀ (curve : List Nat → List Nat) (now1 now2 : Nat) (w1 w2 : SW.SWState) (idx : Nat)
        (a1 : SW.SWAccount) (s1 : SW.SWState) (a2 : SW.SWAccount) (s2 : SW.SWState),
        w1.seedBuf = w2.seedBuf → w1.seedNil = w2.seedNil →
        SW.derive curve now1 w1 idx = .ok (a1, s1) →
        SW.derive curve now2 w2 idx = .ok (a2, s2) →
        a1.address = a2.address ∧ a1.privD = a2.privD ∧ a1.pubBytes = a2.pubBytes) ∧
    (∀ (m p : List Char) (mk1 mk2 : Nat) (w1 w2 : SW.SWState),
        SW.NewFromMnemonic m p mk1 = .ok w1 → SW.NewFromMnemonic m p mk2 = .ok w2 →
        w1.seedBuf = w2.seedBuf ∧ w1.seedNil = w2.seedNil ∧
        w1.isLocked = false ∧ w2.isLocked = false) ∧
    (∀ (pr : HD.HDPrims) (w1 w2 : HD.HDWallet) (path : List Nat),
        w1.masterKey = w2.masterKey →
        HD.derivePrivateKey pr w1 path = HD.derivePrivateKey pr w2 path) := by
  have hkey : ∀ (w1 w2 : SW.SWState) (path : List Nat),
      w1.seedBuf = w2.seedBuf → w1.seedNil = w2.seedNil →
      SW.derivePrivateKeyBytes w1 path = SW.derivePrivateKeyBytes w2 path := by
    intro w1 w2 path hbuf hnil
    simp [SW.derivePrivateKeyBytes, SW.effSeed, hbuf, hnil]
  refine ⟨hkey, ?_, ?_, ?_⟩
  · intro curve now1 now2 w1 w2 idx a1 s1 a2 s2 hbuf hnil h1 h2
    by_cases hl1 : w1.isLocked
    · simp [SW.derive, hl1] at h1
    by_cases hl2 : w2.isLocked
    · simp [SW.derive, hl2] at h2
    simp only [SW.derive, hl1, hl2, if_false, Bool.false_eq_true] at h1 h2
    have hk := hkey w1 w2 [2147483692, 2147483708, 2147483648, 0, idx] hbuf hnil
    cases h1
    cases h2
    simp [hk]
  · intro m p mk1 mk2 w1 w2 h1 h2
    by_cases hv : validateMnemonic m
    · simp only [SW.NewFromMnemonic, hv, Bool.not_true, Bool.false_eq_true, if_false,
        generateSeed_length, ne_eq, not_true_eq_false, Except.ok.injEq] at h1 h2
      rw [← h1, ← h2]
      simp [SW.newWallet]
    · simp [SW.NewFromMnemonic, hv] at h1
  · intro pr w1 w2 path h
    simp [HD.derivePrivateKey, h]

/-- Witness for C1: two wallet states sharing a seed but with different random
master keys, derived at index 0. -/
theorem derive_deterministic_witness :
    SW.derivePrivateKeyBytes
        { mnemonic := [], seedBuf := [1, 2, 3], seedNil := false, masterKey := 7,
          accounts := [], paths := [], isLocked := false } [0] =
      SW.derivePrivateKeyBytes
        { mnemonic := [], seedBuf := [1, 2, 3], seedNil := false, masterKey := 99,
          accounts := [], paths := [], isLocked := false } [0] :=
  derive_deterministic.1
    { mnemonic := [], seedBuf := [1, 2, 3], seedNil := false, masterKey := 7,
      accounts := [], paths := [], isLocked := false }
    { mnemonic := [], seedBuf := [1, 2, 3], seedNil := false, masterKey := 99,
      accounts := [], paths := [], isLocked := false } [0] rfl rfl

/-- C2 (amended): the `SimpleWallet` `Close` (via `cleanup`) zeroes the seed
buffer and every stored account's private-key scalar exactly once and is
idempotent — a second `Close` is a no-op on the state, the seed slice is
dropped and its buffer reads zero, and every stored account's key is cleared —
while the legacy `hdwallet.go` `Close` is a pure no-op (hence trivially
idempotent) that zeroes nothing. -/
theorem close_idempotent_zeroing (w : SW.SWState) :
    (SW.close (SW.close w) = SW.close w ∧
    (SW.close w).seedNil = true ∧
    (w.seedNil = false → ∀ b ∈ (SW.close w).seedBuf, b = 0) ∧
    (SW.close w).accounts = w.accounts.map SW.clearEntry ∧
    (∀ e ∈ (SW.close w).accounts, e.2.privNil = true) ∧
    (∀ e : List Nat × SW.SWAccount, e.2.privNil = false →
        (SW.clearEntry e).2.privD = 0 ∧ (SW.clearEntry e).2.privNil = true)) ∧
    (∀ hw : HD.HDWallet, HD.closeGo (HD.closeGo hw) = HD.closeGo hw ∧ HD.closeGo hw = hw) := by
  refine ⟨?_, fun hw => ⟨rfl, rfl⟩⟩
  have haccs : (SW.close w).accounts = w.accounts.map SW.clearEntry := by
    simp [SW.close, SW.cleanup]
  refine ⟨?_, ?_, ?_, haccs, ?_, ?_⟩
  · cases w with
    | mk mn sb sn mkey accs ps lk =>
      simp only [SW.close, SW.cleanup, List.map_map, SW.SWState.mk.injEq, if_true,
        and_true, true_and]
      exact List.map_congr_left (fun e _ => clearEntry_idem e)
  · simp [SW.close, SW.cleanup]
  · intro hnil b hb
    rw [show (SW.close w).seedBuf = w.seedBuf.map (fun _ => 0) from by
      simp [SW.close, SW.cleanup, hnil]] at hb
    obtain ⟨x, -, hx⟩ := List.mem_map.mp hb
    exact hx.symm
  · intro e he
    rw [haccs] at he
    obtain ⟨x, -, hx⟩ := List.mem_map.mp he
    rw [← hx]
    exact clearEntry_privNil x
  · intro e he
    simp [SW.clearEntry, he]

/-- Witness for C2 on a concrete populated wallet. -/
theorem close_idempotent_zeroing_witness :
    SW.close (SW.close
        { mnemonic := [], seedBuf := [1, 2, 3], seedNil := false, masterKey := 7,
          accounts := [([9], { address := [9], path := [], index := 0, privD := 5,
                               privNil := false, pubBytes := [], createdAt := 0 })],
          paths := [], isLocked := false }) =
      SW.close
        { mnemonic := [], seedBuf := [1, 2, 3], seedNil := false, masterKey := 7,
          accounts := [([9], { address := [9], path := [], index := 0, privD := 5,
                               privNil := false, pubBytes := [], createdAt := 0 })],
          paths := [], isLocked := false } ∧
    (∀ b ∈ (SW.close
        { mnemonic := [], seedBuf := [1, 2, 3], seedNil := false, masterKey := 7,
          accounts := [([9], { address := [9], path := [], index := 0, privD := 5,
                               privNil := false, pubBytes := [], createdAt := 0 })],
          paths := [], isLocked := false }).seedBuf, b = 0) :=
  ⟨(close_idempotent_zeroing _).1.1, (close_idempotent_zeroing _).1.2.2.1 rfl⟩

/-- Counterexample for C2 as frozen: the legacy `hdwallet.go` `Close` (one of
the claim's cited implementations) leaves the seed buffer intact, so after the
first `Close` the secret buffer does not read zero. -/
theorem hd_close_does_not_zero :
    (HD.closeGo { mnemonic := [], masterKey := 0, seed := [1, 2, 3],
                  paths := [], accounts := [] }).seed = [1, 2, 3] ∧
    ¬(∀ b ∈ (HD.closeGo { mnemonic := [], masterKey := 0, seed := [1, 2, 3],
                          paths := [], accounts := [] }).seed, b = 0) :=
  ⟨rfl, by decide⟩

/-! ## Supporting lemmas for the mnemonic claims -/

theorem fieldsAux_append_word (w : List Char) (hw : ∀ c ∈ w, goIsSpace c = false) :
    ∀ (cs acc : List Char), fieldsAux (w ++ cs) acc = fieldsAux cs (w.reverse ++ acc) := by
  induction w with
  | nil => intro cs acc; simp
  | cons c w ih =>
      intro cs acc
      have hc : goIsSpace c = false := hw c (by simp)
      have hw' : ∀ c ∈ w, goIsSpace c = false := fun x hx => hw x (by simp [hx])
      simp only [List.cons_append, fieldsAux, hc, Bool.false_eq_true, if_false,
        List.reverse_cons, List.append_assoc, List.singleton_append]
      exact ih hw' cs (c :: acc)

theorem goFields_joinWords (ws : List (List Char))
    (h : ∀ w ∈ ws, w ≠ [] ∧ ∀ c ∈ w, goIsSpace c = false) :
    goFields (joinWords ws) = ws := by
  induction ws with
  | nil => rfl
  | cons w ws ih =>
      obtain ⟨hne, hns⟩ := h w (by simp)
      have hrev : w.reverse ≠ [] := by simpa using hne
      cases ws with
      | nil =>
          show fieldsAux (joinWords [w]) [] = [w]
          have : joinWords [w] = w ++ [] := by simp [joinWords]
          rw [this, fieldsAux_append_word w hns [] []]
          simp [fieldsAux, hrev]
      | cons w2 ws2 =>
          have hrest : ∀ x ∈ w2 :: ws2, x ≠ [] ∧ ∀ c ∈ x, goIsSpace c = false :=
            fun x hx => h x (by simp [hx])
          show fieldsAux (joinWords (w :: w2 :: ws2)) [] = w :: w2 :: ws2
          have hj : joinWords (w :: w2 :: ws2) = w ++ ' ' :: joinWords (w2 :: ws2) := rfl
          rw [hj, fieldsAux_append_word w hns _ [], List.append_nil]
          show fieldsAux (' ' :: joinWords (w2 :: ws2)) w.reverse = w :: w2 :: ws2
          simp only [fieldsAux, show goIsSpace ' ' = true from rfl, if_true, hrev,
            Bool.false_eq_true, if_false, List.reverse_reverse]
          have hih := ih hrest
          rw [goFields] at hih
          rw [hih]

theorem wordOfIndex_ok (i : Nat) :
    wordOfIndex i ≠ [] ∧ ∀ c ∈ wordOfIndex i, goIsSpace c = false := by
  constructor
  · simp [wordOfIndex]
  · intro c hc
    simp only [wordOfIndex, List.mem_cons] at hc
    rcases hc with h | h
    · rw [h]; decide
    · rw [List.eq_of_mem_replicate h]; decide

theorem wordList_getD (i : Nat) (hi : i < 2048) :
    BIP39WordList.getD i [] = wordOfIndex i := by
  rw [BIP39WordList, List.getD_eq_getElem?_getD, List.getElem?_map, List.getElem?_range hi]
  rfl

theorem wordList_mem (i : Nat) (hi : i < 2048) : wordOfIndex i ∈ BIP39WordList :=
  List.mem_map.mpr ⟨i, List.mem_range.mpr hi, rfl⟩

theorem genWords_spec (rnd : Nat → Fin 256) (wc : Nat)
    (hwc : wc = 12 ∨ wc = 15 ∨ wc = 18 ∨ wc = 21 ∨ wc = 24) :
    (goFields (GenerateMnemonic.genWords rnd wc)).length = wc ∧
    validateMnemonic (GenerateMnemonic.genWords rnd wc) = true := by
  set ws : List (List Char) := (List.range wc).map (fun i =>
      BIP39WordList.getD (((rnd (2 * i)).val * 256 + (rnd (2 * i + 1)).val) % 2048) []) with hws
  have hmem : ∀ w ∈ ws, ∃ j, j < 2048 ∧ w = wordOfIndex j := by
    intro w hw
    rw [hws] at hw
    obtain ⟨i, -, hi⟩ := List.mem_map.mp hw
    refine ⟨((rnd (2 * i)).val * 256 + (rnd (2 * i + 1)).val) % 2048, Nat.mod_lt _ (by omega), ?_⟩
    rw [← hi, wordList_getD _ (Nat.mod_lt _ (by omega))]
  have hok : ∀ w ∈ ws, w ≠ [] ∧ ∀ c ∈ w, goIsSpace c = false := by
    intro w hw
    obtain ⟨j, -, hj⟩ := hmem w hw
    rw [hj]
    exact wordOfIndex_ok j
  have hfields : goFields (GenerateMnemonic.genWords rnd wc) = ws := by
    rw [GenerateMnemonic.genWords, ← hws]
    exact goFields_joinWords ws hok
  have hlen : ws.length = wc := by rw [hws]; simp
  refine ⟨by rw [hfields, hlen], ?_⟩
  rw [validateMnemonic, hfields, hlen]
  have hcond : ¬(wc ≠ 12 ∧ wc ≠ 15 ∧ wc ≠ 18 ∧ wc ≠ 21 ∧ wc ≠ 24) := by
    rcases hwc with h | h | h | h | h <;> simp [h]
  rw [if_neg hcond]
  rw [List.all_eq_true]
  intro w hw
  obtain ⟨j, hj, hjw⟩ := hmem w hw
  rw [hjw]
  exact List.elem_iff.mpr (wordList_mem j hj)

/-- C7: for each entropy size in {128,160,192,224,256}, `GenerateMnemonic`
succeeds with a phrase of exactly `entropyBits/32*3` words, all drawn from the
2048-word dictionary, and `validateMnemonic` accepts it; every other integer
entropy fails with `InvalidEntropy`. -/
theorem generateMnemonic_spec (rnd : Nat → Fin 256) (eb : Int) :
    ((eb = 128 ∨ eb = 160 ∨ eb = 192 ∨ eb = 224 ∨ eb = 256) →
       ∃ phrase, GenerateMnemonic rnd eb = .ok phrase ∧
         (goFields phrase).length = (eb.toNat / 32) * 3 ∧
         validateMnemonic phrase = true) ∧
    (¬(eb = 128 ∨ eb = 160 ∨ eb = 192 ∨ eb = 224 ∨ eb = 256) →
       GenerateMnemonic rnd eb = .error .invalidEntropy) := by
  constructor
  · intro hv
    rcases hv with h | h | h | h | h <;> subst h
    · exact ⟨_, by simp [GenerateMnemonic], (genWords_spec rnd 12 (by omega)).1, (genWords_spec rnd 12 (by omega)).2⟩
    · exact ⟨_, by simp [GenerateMnemonic], (genWords_spec rnd 15 (by omega)).1, (genWords_spec rnd 15 (by omega)).2⟩
    · exact ⟨_, by simp [GenerateMnemonic], (genWords_spec rnd 18 (by omega)).1, (genWords_spec rnd 18 (by omega)).2⟩
    · exact ⟨_, by simp [GenerateMnemonic], (genWords_spec rnd 21 (by omega)).1, (genWords_spec rnd 21 (by omega)).2⟩
    · exact ⟨_, by simp [GenerateMnemonic], (genWords_spec rnd 24 (by omega)).1, (genWords_spec rnd 24 (by omega)).2⟩
  · intro hne
    by_cases hg : eb < 128 ∨ eb > 256 ∨ eb % 32 ≠ 0
    · unfold GenerateMnemonic
      rw [if_pos hg]
    · push_neg at hg
      exact absurd (by omega : eb = 128 ∨ eb = 160 ∨ eb = 192 ∨ eb = 224 ∨ eb = 256) hne

/-- Witness for C7: the all-zero random stream at 128 bits, and the rejected
size 100. -/
theorem generateMnemonic_spec_witness :
    (∃ phrase, GenerateMnemonic (fun _ => 0) 128 = .ok phrase ∧
       (goFields phrase).length = ((128 : Int).toNat / 32) * 3 ∧
       validateMnemonic phrase = true) ∧
    GenerateMnemonic (fun _ => 0) 100 = .error .invalidEntropy :=
  ⟨(generateMnemonic_spec (fun _ => 0) 128).1 (by decide),
   (generateMnemonic_spec (fun _ => 0) 100).2 (by decide)⟩

/-! ## Supporting lemmas for the legacy-wallet claims -/

/-- The hex digit characters of two digits below 16 agree only for equal digits. -/
theorem hexDigitChar_inj16 : ∀ a b : Fin 16, HD.hexDigitChar a.val = HD.hexDigitChar b.val → a = b := by
  decide

/-- `common.Address.String` is injective on addresses. -/
theorem addrString_inj : ∀ a b : HD.Addr, HD.addrString a = HD.addrString b → a = b := by
  have core : ∀ a b : HD.Addr,
      a.flatMap (fun x => [HD.hexDigitChar (x.val / 16), HD.hexDigitChar (x.val % 16)]) =
      b.flatMap (fun x => [HD.hexDigitChar (x.val / 16), HD.hexDigitChar (x.val % 16)]) →
      a = b := by
    intro a
    induction a with
    | nil => intro b h; cases b with
        | nil => rfl
        | cons y ys => simp at h
    | cons x xs ih =>
        intro b h
        cases b with
        | nil => simp at h
        | cons y ys =>
            simp only [List.flatMap_cons, List.cons_append, List.nil_append, List.cons.injEq] at h
            obtain ⟨h1, h2, h3⟩ := h
            have hx16 : x.val / 16 < 16 := by omega
            have hy16 : y.val / 16 < 16 := by omega
            have hd : x.val / 16 = y.val / 16 := by
              have := hexDigitChar_inj16 ⟨x.val / 16, hx16⟩ ⟨y.val / 16, hy16⟩ h1
              simpa using congrArg Fin.val this
            have hm : x.val % 16 = y.val % 16 := by
              have := hexDigitChar_inj16 ⟨x.val % 16, by omega⟩ ⟨y.val % 16, by omega⟩ h2
              simpa using congrArg Fin.val this
            have hxy : x = y := by
              apply Fin.ext
              omega
            rw [hxy, ih ys h3]
  intro a b h
  simp only [HD.addrString, List.cons.injEq, true_and] at h
  exact core a b h

theorem lookupA_isSome_iff {α β : Type} [DecidableEq α] (m : List (α × β)) (k : α) :
    (lookupA m k).isSome ↔ k ∈ m.map (·.1) := by
  induction m with
  | nil => simp [lookupA]
  | cons e rest ih =>
      obtain ⟨k1, v1⟩ := e
      by_cases hk : k1 = k
      · subst hk; simp [lookupA]
      · simp only [lookupA, if_neg hk, List.map_cons, List.mem_cons]
        rw [ih]
        constructor
        · exact Or.inr
        · rintro (h | h)
          · exact absurd h.symm hk
          · exact h

theorem lookupA_append_single_self {α β : Type} [DecidableEq α]
    (m : List (α × β)) (k : α) (v : β) (h : lookupA m k = none) :
    lookupA (m ++ [(k, v)]) k = some v := by
  induction m with
  | nil => simp [lookupA]
  | cons e rest ih =>
      obtain ⟨k1, v1⟩ := e
      by_cases hk : k1 = k
      · simp [lookupA, hk] at h
      · simp only [lookupA, if_neg hk] at h
        simpa [lookupA, if_neg hk] using ih h

theorem lookupA_filter_ne {α β : Type} [DecidableEq α] (m : List (α × β)) (k : α) :
    lookupA (m.filter (fun e => e.1 ≠ k)) k = none := by
  induction m with
  | nil => simp [lookupA]
  | cons e rest ih =>
      obtain ⟨k1, v1⟩ := e
      by_cases hk : k1 = k
      · simpa [List.filter, hk] using ih
      · simpa [List.filter, hk, lookupA] using ih

/-- Well-formedness of the legacy wallet registry: stored addresses are
duplicate-free and the account list and path index hold exactly the same
addresses in the same order. Freshly constructed wallets satisfy it and
(shown below) `Derive`/`Unpin` preserve it. -/
def WfHD (w : HD.HDWallet) : Prop :=
  (w.accounts.map (·.address)).Nodup ∧
  w.accounts.map (·.address) = w.paths.map (·.1)

instance (w : HD.HDWallet) : Decidable (WfHD w) := by
  unfold WfHD
  infer_instance

theorem count_eq_one_of_nodup_mem {α : Type} [BEq α] [LawfulBEq α] {l : List α} {x : α}
    (hnd : l.Nodup) (hm : x ∈ l) : l.count x = 1 := by
  induction l with
  | nil => simp at hm
  | cons y ys ih =>
      rw [List.nodup_cons] at hnd
      rcases List.mem_cons.mp hm with h | h
      · subst h
        rw [List.count_cons_self, List.count_eq_zero.mpr hnd.1]
      · have hxy : x ≠ y := fun he => hnd.1 (he ▸ h)
        rw [List.count_cons_of_ne hxy]
        exact ih hnd.2 h

theorem removeFirst_none_iff (t : HD.Addr) (l : List HD.HAccount) :
    HD.removeFirst t l = none ↔ t ∉ l.map (·.address) := by
  induction l with
  | nil => simp [HD.removeFirst]
  | cons x xs ih =>
      by_cases hx : HD.addrString x.address = HD.addrString t
      · have : x.address = t := addrString_inj _ _ hx
        simp [HD.removeFirst, hx, this]
      · have hne : x.address ≠ t := fun he => hx (by rw [he])
        simp only [HD.removeFirst, if_neg hx, List.map_cons, List.mem_cons]
        constructor
        · intro h hc
          rcases hc with hc | hc
          · exact hne hc.symm
          · rcases ho : HD.removeFirst t xs with _ | l1
            · exact (ih.mp ho) hc
            · rw [ho] at h; simp at h
        · intro h
          have : HD.removeFirst t xs = none := ih.mpr (fun hc => h (Or.inr hc))
          rw [this]
          rfl

theorem removeFirst_not_mem (t : HD.Addr) (l : List HD.HAccount) (l1 : List HD.HAccount)
    (hnd : (l.map (·.address)).Nodup) (h : HD.removeFirst t l = some l1) :
    t ∉ l1.map (·.address) := by
  induction l generalizing l1 with
  | nil => simp [HD.removeFirst] at h
  | cons x xs ih =>
      simp only [List.map_cons, List.nodup_cons] at hnd
      by_cases hx : HD.addrString x.address = HD.addrString t
      · have hxt : x.address = t := addrString_inj _ _ hx
        simp only [HD.removeFirst, if_pos hx] at h
        cases h
        rw [← hxt]
        exact hnd.1
      · simp only [HD.removeFirst, if_neg hx] at h
        rcases ho : HD.removeFirst t xs with _ | l2
        · rw [ho] at h; simp at h
        · rw [ho] at h
          have h : x :: l2 = l1 := by
            have := h
            simpa [Option.map] using this
          have hne : x.address ≠ t := fun he => hx (by rw [he])
          rw [← h]
          simp only [List.map_cons, List.mem_cons]
          rintro (hc | hc)
          · exact hne hc.symm
          · exact ih l2 hnd.2 ho hc


/-- C3 (the code's actual behaviour, contradicting the spec's requirement):
`SignHashWithPassphrase` and `SignTxWithPassphrase` are no-op pass-throughs to
`SignHash`/`SignTx`; the passphrase argument never influences the result, so
two calls differing only in the passphrase sign with the same derived key. -/
theorem signWithPassphrase_is_passthrough :
    (∀ (pr : HD.HDPrims) (w : HD.HDWallet) (a : HD.HAccount) (p1 p2 : List Char) (hash : List Nat),
        HD.signHashWithPassphrase pr w a p1 hash = HD.signHash pr w a hash ∧
        HD.signHashWithPassphrase pr w a p1 hash = HD.signHashWithPassphrase pr w a p2 hash) ∧
    (∀ (pr : HD.HDPrims) (w : HD.HDWallet) (a : HD.HAccount) (p1 p2 : List Char) (tx : Nat),
        HD.signTxWithPassphrase pr w a p1 tx = HD.signTx pr w a tx ∧
        HD.signTxWithPassphrase pr w a p1 tx = HD.signTxWithPassphrase pr w a p2 tx) :=
  ⟨fun _ _ _ _ _ _ => ⟨rfl, rfl⟩, fun _ _ _ _ _ _ => ⟨rfl, rfl⟩⟩

/-- C4: `SignTx` fails with the unknown-account error when the address is not
in the path registry; when it returns a signed transaction, the sender
recovered from it equals the account address; and when every library step
succeeds but the recovered sender differs, it fails with the signer-mismatch
error rather than returning the transaction. -/
theorem signTx_sender_check (pr : HD.HDPrims) (w : HD.HDWallet) (a : HD.HAccount) (tx : Nat) :
    (lookupA w.paths a.address = none → HD.signTx pr w a tx = .error .unknownAccount) ∧
    (∀ st, HD.signTx pr w a tx = .ok st → pr.asMessageFrom st = some a.address) ∧
    (∀ path priv st sender,
        lookupA w.paths a.address = some path →
        HD.derivePrivateKey pr w path = some priv →
        pr.txSign tx priv = some st →
        pr.asMessageFrom st = some sender →
        sender ≠ a.address →
        HD.signTx pr w a tx = .error .signerMismatch) := by
  refine ⟨?_, ?_, ?_⟩
  · intro h
    simp [HD.signTx, h]
  · intro st h
    rcases hl : lookupA w.paths a.address with _ | path <;>
      simp only [HD.signTx, hl] at h
    · exact absurd h (by simp)
    rcases hd : HD.derivePrivateKey pr w path with _ | priv <;>
      simp only [hd] at h
    · exact absurd h (by simp)
    rcases hs : pr.txSign tx priv with _ | st1 <;>
      simp only [hs] at h
    · exact absurd h (by simp)
    rcases hm : pr.asMessageFrom st1 with _ | sender <;>
      simp only [hm] at h
    · exact absurd h (by simp)
    by_cases he : sender = a.address
    · rw [if_pos he] at h
      have hst : st1 = st := by simpa using h
      rw [← hst, hm, he]
    · rw [if_neg he] at h
      exact absurd h (by simp)
  · intro path priv st sender hl hd hs hm hne
    simp [HD.signTx, hl, hd, hs, hm, hne]

/-- Witness for C4: the empty wallet rejects any account with the
unknown-account error, and a registered account whose recovered sender differs
from its address yields the signer-mismatch error. -/
theorem signTx_sender_check_witness :
    HD.signTx
      { child := fun k n => some (k + n), ecPriv := some, pubOf := id,
        pubToAddr := fun _ => [3], pathString := fun _ => [],
        ecSign := fun _ _ => some [], txSign := fun t _ => some t,
        asMessageFrom := fun _ => some [3], newMaster := fun _ => some 0 }
      { mnemonic := [], masterKey := 0, seed := [], paths := [], accounts := [] }
      ⟨[3], ⟨[], []⟩⟩ 5 = .error .unknownAccount ∧
    HD.signTx
      { child := fun k n => some (k + n), ecPriv := some, pubOf := id,
        pubToAddr := fun _ => [3], pathString := fun _ => [],
        ecSign := fun _ _ => some [], txSign := fun t _ => some t,
        asMessageFrom := fun _ => some [9], newMaster := fun _ => some 0 }
      { mnemonic := [], masterKey := 0, seed := [],
        paths := [([3], [1, 2])], accounts := [⟨[3], ⟨[], []⟩⟩] }
      ⟨[3], ⟨[], []⟩⟩ 5 = .error .signerMismatch :=
  ⟨(signTx_sender_check _ _ _ 5).1 rfl,
   (signTx_sender_check _ _ _ 5).2.2 [1, 2] 3 5 [9] rfl rfl rfl rfl (by decide)⟩

/-- C5: pinned derivation is idempotent. A successful `Derive(path, pin=true)`
yields a state from which deriving the same path again returns the very same
account and leaves the state untouched; the registry stays well-formed and
holds exactly one entry for the derived address in the account list and
exactly one in the path index. -/
theorem derive_pin_idempotent (pr : HD.HDPrims) (w : HD.HDWallet) (path : List Nat)
    (a : HD.HAccount) (w1 : HD.HDWallet) (hwf : WfHD w)
    (h : HD.derive pr w path true = .ok (a, w1)) :
    HD.derive pr w1 path true = .ok (a, w1) ∧ WfHD w1 ∧
    (w1.accounts.map (·.address)).count a.address = 1 ∧
    (w1.paths.map (·.1)).count a.address = 1 := by
  rcases hda : HD.deriveAddress pr w path with _ | address <;>
    simp only [HD.derive, hda, Bool.not_true, Bool.false_eq_true, if_false] at h
  · exact absurd h (by simp)
  rcases hlk : lookupA w.paths address with _ | p0 <;>
    simp only [hlk] at h
  · -- the address was not yet pinned: both structures gain exactly one entry
    obtain ⟨ha, hw1⟩ : (⟨address, ⟨[], pr.pathString path⟩⟩ : HD.HAccount) = a ∧
        { w with accounts := w.accounts ++ [⟨address, ⟨[], pr.pathString path⟩⟩],
                 paths := w.paths ++ [(address, path)] } = w1 := by
      simpa using h
    have haddr : a.address = address := by rw [← ha]
    have hnotP : address ∉ w.paths.map (·.1) := by
      intro hc
      have := (lookupA_isSome_iff w.paths address).mpr hc
      rw [hlk] at this
      simp at this
    have hnotA : address ∉ w.accounts.map (·.address) := by
      rw [hwf.2]
      exact hnotP
    have hda1 : HD.deriveAddress pr w1 path = some address := by
      rw [← hw1]
      exact hda
    have hlk1 : lookupA w1.paths address = some path := by
      rw [← hw1]
      exact lookupA_append_single_self w.paths address path hlk
    refine ⟨?_, ?_, ?_, ?_⟩
    · simp only [HD.derive, hda1, Bool.not_true, Bool.false_eq_true, if_false, hlk1]
      rw [ha]
    · constructor
      · rw [← hw1]
        simp only [List.map_append, List.map_cons, List.map_nil]
        rw [List.nodup_append]
        exact ⟨hwf.1, List.nodup_singleton address, by simpa using hnotA⟩
      · rw [← hw1]
        simp only [List.map_append, List.map_cons, List.map_nil]
        rw [hwf.2]
    · rw [← hw1, haddr]
      simp only [List.map_append, List.map_cons, List.map_nil, List.count_append]
      rw [List.count_eq_zero_of_not_mem hnotA]
      simp
    · rw [← hw1, haddr]
      simp only [List.map_append, List.map_cons, List.map_nil, List.count_append]
      rw [List.count_eq_zero_of_not_mem hnotP]
      simp
  · -- the address was already pinned: the state is returned unchanged
    obtain ⟨ha, hw1⟩ : (⟨address, ⟨[], pr.pathString path⟩⟩ : HD.HAccount) = a ∧ w = w1 := by
      simpa using h
    have haddr : a.address = address := by rw [← ha]
    have hmemP : address ∈ w.paths.map (·.1) :=
      (lookupA_isSome_iff w.paths address).mp (by rw [hlk]; rfl)
    have hmemA : address ∈ w.accounts.map (·.address) := by
      rw [hwf.2]
      exact hmemP
    have hndP : (w.paths.map (·.1)).Nodup := by
      rw [← hwf.2]
      exact hwf.1
    refine ⟨?_, ?_, ?_, ?_⟩
    · rw [← hw1]
      simp only [HD.derive, hda, Bool.not_true, Bool.false_eq_true, if_false, hlk]
      rw [ha]
    · rw [← hw1]
      exact hwf
    · rw [← hw1, haddr]
      exact count_eq_one_of_nodup_mem hwf.1 hmemA
    · rw [← hw1, haddr]
      exact count_eq_one_of_nodup_mem hndP hmemP

/-- Witness for C5: pin path `[1, 2]` twice on the empty wallet, with
elementary stand-ins for the library primitives. -/
theorem derive_pin_idempotent_witness :
    HD.derive
        { child := fun k n => some (k + n), ecPriv := some, pubOf := id,
          pubToAddr := fun _ => [7], pathString := fun _ => [],
          ecSign := fun _ _ => some [], txSign := fun t _ => some t,
          asMessageFrom := fun _ => some [7], newMaster := fun _ => some 0 }
        { mnemonic := [], masterKey := 0, seed := [],
          paths := [([7], [1, 2])], accounts := [⟨[7], ⟨[], []⟩⟩] } [1, 2] true =
      .ok (⟨[7], ⟨[], []⟩⟩,
        { mnemonic := [], masterKey := 0, seed := [],
          paths := [([7], [1, 2])], accounts := [⟨[7], ⟨[], []⟩⟩] }) ∧
    ((({ mnemonic := [], masterKey := 0, seed := [],
         paths := [([7], [1, 2])], accounts := [⟨[7], ⟨[], []⟩⟩] } : HD.HDWallet)).accounts.map
        (·.address)).count [7] = 1 :=
  have h := derive_pin_idempotent
    { child := fun k n => some (k + n), ecPriv := some, pubOf := id,
      pubToAddr := fun _ => [7], pathString := fun _ => [],
      ecSign := fun _ _ => some [], txSign := fun t _ => some t,
      asMessageFrom := fun _ => some [7], newMaster := fun _ => some 0 }
    { mnemonic := [], masterKey := 0, seed := [], paths := [], accounts := [] }
    [1, 2] ⟨[7], ⟨[], []⟩⟩
    { mnemonic := [], masterKey := 0, seed := [],
      paths := [([7], [1, 2])], accounts := [⟨[7], ⟨[], []⟩⟩] }
    (by decide) rfl
  ⟨h.1, by simpa using h.2.2.1⟩

/-- C6: `Unpin` fails with the account-not-found error exactly when the
address is not pinned; on a pinned address it removes the entry from both the
account list and the path index, after which `Contains` is false. -/
theorem unpin_iff_pinned (w : HD.HDWallet) (a : HD.HAccount) (hwf : WfHD w) :
    (lookupA w.paths a.address = none → HD.unpin w a = .error .accountNotFound) ∧
    (∀ p, lookupA w.paths a.address = some p →
       HD.unpin w a =
         .ok { w with
               accounts := (HD.removeFirst a.address w.accounts).getD w.accounts,
               paths := w.paths.filter (fun e => e.1 ≠ a.address) } ∧
       a.address ∉ ((HD.removeFirst a.address w.accounts).getD w.accounts).map (·.address) ∧
       lookupA (w.paths.filter (fun e => e.1 ≠ a.address)) a.address = none ∧
       HD.contains { w with
               accounts := (HD.removeFirst a.address w.accounts).getD w.accounts,
               paths := w.paths.filter (fun e => e.1 ≠ a.address) } a = false) := by
  constructor
  · intro h
    have hmem : a.address ∉ w.accounts.map (·.address) := by
      rw [hwf.2]
      intro hc
      have := (lookupA_isSome_iff w.paths a.address).mpr hc
      rw [h] at this
      simp at this
    have hrf : HD.removeFirst a.address w.accounts = none := (removeFirst_none_iff _ _).mpr hmem
    simp [HD.unpin, hrf]
  · intro p hp
    have hmemP : a.address ∈ w.paths.map (·.1) :=
      (lookupA_isSome_iff _ _).mp (by rw [hp]; rfl)
    have hmemA : a.address ∈ w.accounts.map (·.address) := by
      rw [hwf.2]
      exact hmemP
    rcases hrf : HD.removeFirst a.address w.accounts with _ | l1
    · exact absurd hmemA ((removeFirst_none_iff _ _).mp hrf)
    refine ⟨?_, ?_, lookupA_filter_ne w.paths a.address, ?_⟩
    · simp [HD.unpin, hrf]
    · exact removeFirst_not_mem _ _ _ hwf.1 hrf
    · simp only [HD.contains]
      rw [lookupA_filter_ne w.paths a.address]
      rfl

/-- Witness for C6: unpin the single pinned account of a concrete wallet. -/
theorem unpin_iff_pinned_witness :
    HD.unpin
        { mnemonic := [], masterKey := 0, seed := [],
          paths := [([3], [1, 2])], accounts := [⟨[3], ⟨[], []⟩⟩] }
        ⟨[3], ⟨[], []⟩⟩ =
      .ok { mnemonic := [], masterKey := 0, seed := [],
            accounts := (HD.removeFirst ([3] : HD.Addr)
                [⟨[3], ⟨[], []⟩⟩]).getD [⟨[3], ⟨[], []⟩⟩],
            paths := [(([3] : HD.Addr), [1, 2])].filter (fun e => e.1 ≠ ([3] : HD.Addr)) } ∧
    ([3] : HD.Addr) ∉ ((HD.removeFirst ([3] : HD.Addr)
        [⟨[3], ⟨[], []⟩⟩]).getD [⟨[3], ⟨[], []⟩⟩]).map (·.address) ∧
    lookupA ([(([3] : HD.Addr), [1, 2])].filter (fun e => e.1 ≠ ([3] : HD.Addr))) ([3] : HD.Addr) = none ∧
    HD.contains
        { mnemonic := [], masterKey := 0, seed := [],
          accounts := (HD.removeFirst ([3] : HD.Addr)
              [⟨[3], ⟨[], []⟩⟩]).getD [⟨[3], ⟨[], []⟩⟩],
          paths := [(([3] : HD.Addr), [1, 2])].filter (fun e => e.1 ≠ ([3] : HD.Addr)) }
        ⟨[3], ⟨[], []⟩⟩ = false :=
  (unpin_iff_pinned
    { mnemonic := [], masterKey := 0, seed := [],
      paths := [([3], [1, 2])], accounts := [⟨[3], ⟨[], []⟩⟩] }
    ⟨[3], ⟨[], []⟩⟩ (by decide)).2 [1, 2] (by decide)

/-- C10 (the code's actual locking, contradicting the spec's discipline):
`Unpin` runs its whole body — which mutates both the account list and the path
index — under the shared `RLock`, and `SignHash` reads the path registry with
no lock at all; only the pinning branch of `Derive` takes the exclusive lock. -/
theorem unpin_mutates_under_shared_lock :
    HD.unpinLockKind = HD.LockKind.shared ∧
    HD.derivePinLockKind = HD.LockKind.exclusive ∧
    HD.signHashLockKind = HD.LockKind.noLock ∧
    (∃ (w w1 : HD.HDWallet) (a : HD.HAccount), HD.unpin w a = .ok w1 ∧ w1 ≠ w) := by
  refine ⟨rfl, rfl, rfl,
    ⟨{ mnemonic := [], masterKey := 0, seed := [],
       paths := [([3], [1, 2])], accounts := [⟨[3], ⟨[], []⟩⟩] },
     { mnemonic := [], masterKey := 0, seed := [], paths := [], accounts := [] },
     ⟨[3], ⟨[], []⟩⟩, rfl, by decide⟩⟩

/-! ## Claim C8: the `PrivateKeyHex` stripping defect -/

theorem hexOfBytes_length (bs : List Nat) : (HD.hexOfBytes bs).length = 2 * bs.length := by
  induction bs with
  | nil => rfl
  | cons b rest ih =>
      simp only [HD.hexOfBytes, List.flatMap_cons] at ih ⊢
      simp [ih]
      omega

theorem hexCharVal_hexDigitChar (n : Nat) (h : n < 16) :
    HD.hexCharVal (HD.hexDigitChar n) = n := by
  have : ∀ m : Fin 16, HD.hexCharVal (HD.hexDigitChar m.val) = m.val := by decide
  exact this ⟨n, h⟩

theorem hexDigitChar_eq_zero_iff (n : Nat) (h : n < 16) :
    HD.hexDigitChar n = '0' ↔ n = 0 := by
  have : ∀ m : Fin 16, (HD.hexDigitChar m.val = '0' ↔ m.val = 0) := by decide
  exact this ⟨n, h⟩

theorem hexDecode_hexOfBytes (bs : List Nat) (h : ∀ b ∈ bs, b < 256) :
    HD.hexDecode (HD.hexOfBytes bs) = bs := by
  induction bs with
  | nil => rfl
  | cons b rest ih =>
      have hb : b < 256 := h b (by simp)
      have hrest : ∀ x ∈ rest, x < 256 := fun x hx => h x (by simp [hx])
      simp only [HD.hexOfBytes, List.flatMap_cons, List.cons_append, List.nil_append]
      show (16 * HD.hexCharVal (HD.hexDigitChar (b / 16)) +
              HD.hexCharVal (HD.hexDigitChar (b % 16))) :: HD.hexDecode (HD.hexOfBytes rest) =
        b :: rest
      rw [hexCharVal_hexDigitChar (b / 16) (by omega),
          hexCharVal_hexDigitChar (b % 16) (by omega), ih hrest]
      congr 1
      omega

/-- C8: `PrivateKeyHex` checks hex positions 2 and 3 (the second key byte) but
then strips the first two characters (the first key byte). So for a 32-byte
key whose second byte is zero it returns a 62-character string that omits the
first byte — decoding it yields the 31-byte tail, not the key — while for all
other keys it returns the full 64-character encoding. -/
theorem privateKeyHex_strips_first_byte (bs : List Nat) (hlen : bs.length = 32)
    (hb : ∀ b ∈ bs, b < 256) :
    (bs.getD 1 1 = 0 →
       HD.privateKeyHexGo bs = HD.hexOfBytes (bs.drop 1) ∧
       (HD.privateKeyHexGo bs).length = 62 ∧
       HD.hexDecode (HD.privateKeyHexGo bs) = bs.drop 1 ∧
       HD.hexDecode (HD.privateKeyHexGo bs) ≠ bs) ∧
    (bs.getD 1 1 ≠ 0 →
       HD.privateKeyHexGo bs = HD.hexOfBytes bs ∧
       (HD.privateKeyHexGo bs).length = 64 ∧
       HD.hexDecode (HD.privateKeyHexGo bs) = bs) := by
  rcases bs with _ | ⟨b0, bs⟩
  · simp at hlen
  rcases bs with _ | ⟨b1, rest⟩
  · simp at hlen
  have hrlen : rest.length = 30 := by simpa using hlen
  have hb0 : b0 < 256 := hb b0 (by simp)
  have hb1 : b1 < 256 := hb b1 (by simp)
  have hhex : HD.hexOfBytes (b0 :: b1 :: rest) =
      HD.hexDigitChar (b0 / 16) :: HD.hexDigitChar (b0 % 16) ::
      HD.hexDigitChar (b1 / 16) :: HD.hexDigitChar (b1 % 16) :: HD.hexOfBytes rest := by
    simp [HD.hexOfBytes]
  have hgd : (b0 :: b1 :: rest).getD 1 1 = b1 := rfl
  have hcond : (HD.hexOfBytes (b0 :: b1 :: rest)).getD 2 ' ' = HD.hexDigitChar (b1 / 16) ∧
      (HD.hexOfBytes (b0 :: b1 :: rest)).getD 3 ' ' = HD.hexDigitChar (b1 % 16) := by
    rw [hhex]
    exact ⟨rfl, rfl⟩
  constructor
  · intro hz
    rw [hgd] at hz
    subst hz
    have hcondT : (HD.hexOfBytes (b0 :: 0 :: rest)).getD 2 ' ' = '0' ∧
        (HD.hexOfBytes (b0 :: 0 :: rest)).getD 3 ' ' = '0' := by
      rw [hcond.1, hcond.2]
      exact ⟨rfl, rfl⟩
    have hres : HD.privateKeyHexGo (b0 :: 0 :: rest) =
        (HD.hexOfBytes (b0 :: 0 :: rest)).drop 2 := by
      simp only [HD.privateKeyHexGo, List.drop_succ_cons, List.drop_zero]
      rw [if_pos ⟨hcondT.1, hcondT.2⟩]
    have hdrop : (HD.hexOfBytes (b0 :: 0 :: rest)).drop 2 = HD.hexOfBytes (0 :: rest) := by
      rw [hhex]
      rfl
    have hres2 : HD.privateKeyHexGo (b0 :: 0 :: rest) = HD.hexOfBytes (0 :: rest) := by
      rw [hres, hdrop]
    have hrestB : ∀ x ∈ (0 : Nat) :: rest, x < 256 := by
      intro x hx
      rcases List.mem_cons.mp hx with h | h
      · omega
      · exact hb x (by simp [h])
    refine ⟨hres2, ?_, ?_, ?_⟩
    · rw [hres2, hexOfBytes_length]
      simp [hrlen]
    · rw [hres2, hexDecode_hexOfBytes _ hrestB]
      rfl
    · rw [hres2, hexDecode_hexOfBytes _ hrestB]
      intro hc
      have := congrArg List.length hc
      simp [hrlen] at this
  · intro hnz
    rw [hgd] at hnz
    have hcondF : ¬((HD.hexOfBytes (b0 :: b1 :: rest)).getD 2 ' ' = '0' ∧
        (HD.hexOfBytes (b0 :: b1 :: rest)).getD 3 ' ' = '0') := by
      rw [hcond.1, hcond.2]
      rintro ⟨h2, h3⟩
      rw [hexDigitChar_eq_zero_iff (b1 / 16) (by omega)] at h2
      rw [hexDigitChar_eq_zero_iff (b1 % 16) (by omega)] at h3
      omega
    have hres : HD.privateKeyHexGo (b0 :: b1 :: rest) = HD.hexOfBytes (b0 :: b1 :: rest) := by
      simp only [HD.privateKeyHexGo, List.drop_succ_cons, List.drop_zero]
      rw [if_neg hcondF]
    refine ⟨hres, ?_, ?_⟩
    · rw [hres, hexOfBytes_length]
      simp [hrlen]
    · rw [hres, hexDecode_hexOfBytes _ hb]

/-- Witness for C8: a key with zero second byte loses its first byte; a key
with nonzero second byte round-trips. -/
theorem privateKeyHex_strips_first_byte_witness :
    (HD.privateKeyHexGo (9 :: 0 :: List.replicate 30 5) =
       HD.hexOfBytes ((9 :: 0 :: List.replicate 30 5).drop 1) ∧
     (HD.privateKeyHexGo (9 :: 0 :: List.replicate 30 5)).length = 62 ∧
     HD.hexDecode (HD.privateKeyHexGo (9 :: 0 :: List.replicate 30 5)) =
       (9 :: 0 :: List.replicate 30 5).drop 1 ∧
     HD.hexDecode (HD.privateKeyHexGo (9 :: 0 :: List.replicate 30 5)) ≠
       9 :: 0 :: List.replicate 30 5) ∧
    (HD.privateKeyHexGo (9 :: 1 :: List.replicate 30 5) =
       HD.hexOfBytes (9 :: 1 :: List.replicate 30 5) ∧
     (HD.privateKeyHexGo (9 :: 1 :: List.replicate 30 5)).length = 64 ∧
     HD.hexDecode (HD.privateKeyHexGo (9 :: 1 :: List.replicate 30 5)) =
       9 :: 1 :: List.replicate 30 5) :=
  ⟨(privateKeyHex_strips_first_byte (9 :: 0 :: List.replicate 30 5)
      (by decide) (by decide)).1 (by decide),
   (privateKeyHex_strips_first_byte (9 :: 1 :: List.replicate 30 5)
      (by decide) (by decide)).2 (by decide)⟩
